import Mathlib

/-! # Verification of the MyCanada newcomer-assistant FAQ matcher

Shallow embedding of the helper functions of `src/app.py`:

* `best_faq_match(query, threshold=0.55)` — scans the FAQ corpus, scoring each
  record's `"question"` text against the stripped query with
  `difflib.SequenceMatcher(None, query.lower(), q_text.lower()).ratio()`,
  keeps the running best under strict improvement, and applies the
  `best_score < threshold` cut at the end.
* `list_provinces()` — `sorted({c.get("province", "Unknown") for c in cities})`.

The similarity metric is Python's `difflib.SequenceMatcher` with
`isjunk=None` and the default `autojunk=True`.  We embed it faithfully:
`b2j` drops "popular" elements (sequences of length ≥ 200 whose element
count exceeds `len(b)//100 + 1`), `find_longest_match` is the row-by-row
dynamic program followed by the two non-junk extension loops (the two
junk-extension loops of the library are no-ops because `isjunk=None`
makes the junk set empty, so they are omitted), and `ratio` is
`2*matches/(len(a)+len(b))` over the matching blocks.  `get_matching_blocks`
is a worklist (queue) algorithm; since each interval is processed
independently of the rest of the queue, the total match count is the
natural recursion over intervals, which is how `mbMatches` is written
(the library's final sorting / merging of adjacent blocks and the
`(la, lb, 0)` terminator do not change the sum of the block sizes that
`ratio` consumes).  Scores are represented exactly in `ℚ`; Python floats
are modelled by exact rationals.

Strings are lists of characters; `pyLower` and `strip` model `str.lower`
and `str.strip` on the character classes Lean provides (ASCII case folding
and the standard whitespace characters), which cover all texts the claims
are about.
-/

namespace MyCanada

abbrev Str := List Char

/-- `str.lower()` (ASCII case folding of each character). -/
def pyLower (s : Str) : Str := s.map Char.toLower

/-- `str.strip()` — remove leading and trailing whitespace. -/
def strip (s : Str) : Str :=
  ((s.dropWhile Char.isWhitespace).reverse.dropWhile Char.isWhitespace).reverse

/-- Total indexing `s[i]`; every use below is at an in-range index. -/
def charAt (s : Str) (i : ℕ) : Char := s.getD i ' '

/-- The `autojunk` heuristic of `SequenceMatcher.__chain_b`: for sequences of
length at least 200, an element occurring more than `len(b) // 100 + 1` times
is "popular" and is purged from `b2j`. -/
def isPopular (b : Str) (c : Char) : Bool :=
  200 ≤ b.length && b.length / 100 + 1 < b.count c

/-- `b2j[c]`: the ascending list of positions of `c` in `b`, empty when `c`
is purged as popular (or does not occur). -/
def b2j (b : Str) (c : Char) : List ℕ :=
  if isPopular b c then []
  else (List.range b.length).filter (fun j => decide (charAt b j = c))

/-- The running `(besti, bestj, bestsize)` triple of `find_longest_match`. -/
structure FlmState where
  besti : ℕ
  bestj : ℕ
  bestsize : ℕ
deriving DecidableEq, Repr

/-- Dictionary write `d[j] = k` over the total representation with default 0. -/
def upd (f : ℕ → ℕ) (j k : ℕ) : ℕ → ℕ := fun j' => if j' = j then k else f j'

/-- The inner loop of `find_longest_match` over `b2j[a[i]]`:
`continue` below `blo`, `break` at `bhi`, otherwise chain
`k = j2len.get(j-1, 0) + 1` into the fresh row and update the best triple
on strict improvement. -/
def innerLoop (i blo bhi : ℕ) :
    List ℕ → (ℕ → ℕ) → (ℕ → ℕ) → FlmState → (ℕ → ℕ) × FlmState
  | [], _prev, new, best => (new, best)
  | j :: js, prev, new, best =>
    if j < blo then innerLoop i blo bhi js prev new best
    else if bhi ≤ j then (new, best)
    else
      let k := (if j = 0 then 0 else prev (j - 1)) + 1
      let best' : FlmState :=
        if best.bestsize < k then ⟨i + 1 - k, j + 1 - k, k⟩ else best
      innerLoop i blo bhi js prev (upd new j k) best'

/-- The outer loop of `find_longest_match`: one `innerLoop` per row `i`,
threading `j2len` (the previous row) and the best triple. -/
def rows (a b : Str) (blo bhi : ℕ) :
    List ℕ → (ℕ → ℕ) → FlmState → FlmState
  | [], _j2len, best => best
  | i :: is, j2len, best =>
    let p := innerLoop i blo bhi (b2j b (charAt a i)) j2len (fun _ => 0) best
    rows a b blo bhi is p.1 p.2

/-- The dynamic-programming phase of `find_longest_match` on the window
`a[alo:ahi]`, `b[blo:bhi]`, starting from `(alo, blo, 0)`. -/
def flmDP (a b : Str) (alo ahi blo bhi : ℕ) : FlmState :=
  rows a b blo bhi (List.range' alo (ahi - alo)) (fun _ => 0) ⟨alo, blo, 0⟩

/-- Body of the first extension loop, with an explicit step budget so the
recursion is structural (and hence evaluates by kernel reduction).  Each
iteration decrements `besti`, so `besti + 1` steps always suffice;
`extendLower_eq` recovers the exact while-loop unfolding. -/
def extendLowerGo (a b : Str) (alo blo : ℕ) : ℕ → FlmState → FlmState
  | 0, s => s
  | fuel + 1, s =>
    if alo < s.besti ∧ blo < s.bestj ∧
        charAt a (s.besti - 1) = charAt b (s.bestj - 1) then
      extendLowerGo a b alo blo fuel ⟨s.besti - 1, s.bestj - 1, s.bestsize + 1⟩
    else s

/-- First extension loop: grow the block downwards while the characters
before it agree (the junk test is vacuous for `isjunk=None`). -/
def extendLower (a b : Str) (alo blo : ℕ) (s : FlmState) : FlmState :=
  extendLowerGo a b alo blo (s.besti + 1) s

theorem extendLowerGo_irrel (a b : Str) (alo blo : ℕ) :
    ∀ fuel₁, ∀ (fuel₂ : ℕ) (s : FlmState), s.besti < fuel₁ → s.besti < fuel₂ →
    extendLowerGo a b alo blo fuel₁ s = extendLowerGo a b alo blo fuel₂ s := by
  intro fuel₁
  induction fuel₁ with
  | zero => intro fuel₂ s h₁ _; omega
  | succ fuel₁ ih =>
    intro fuel₂ s h₁ h₂
    rcases fuel₂ with _ | fuel₂
    · omega
    · rw [extendLowerGo, extendLowerGo]
      by_cases h : alo < s.besti ∧ blo < s.bestj ∧
          charAt a (s.besti - 1) = charAt b (s.bestj - 1)
      · rw [if_pos h, if_pos h]
        exact ih fuel₂ _ (by dsimp only; omega) (by dsimp only; omega)
      · rw [if_neg h, if_neg h]

/-- The while-loop unfolding of `extendLower`. -/
theorem extendLower_eq (a b : Str) (alo blo : ℕ) (s : FlmState) :
    extendLower a b alo blo s =
      if alo < s.besti ∧ blo < s.bestj ∧
          charAt a (s.besti - 1) = charAt b (s.bestj - 1) then
        extendLower a b alo blo ⟨s.besti - 1, s.bestj - 1, s.bestsize + 1⟩
      else s := by
  unfold extendLower
  rw [extendLowerGo]
  by_cases h : alo < s.besti ∧ blo < s.bestj ∧
      charAt a (s.besti - 1) = charAt b (s.bestj - 1)
  · rw [if_pos h, if_pos h]
    exact extendLowerGo_irrel a b alo blo _ _ _ (by dsimp only; omega)
      (by dsimp only; omega)
  · rw [if_neg h, if_neg h]

/-- Body of the second extension loop; `ahi - (besti + bestsize) + 1` steps
always suffice since each iteration increments `bestsize`. -/
def extendUpperGo (a b : Str) (ahi bhi : ℕ) : ℕ → FlmState → FlmState
  | 0, s => s
  | fuel + 1, s =>
    if s.besti + s.bestsize < ahi ∧ s.bestj + s.bestsize < bhi ∧
        charAt a (s.besti + s.bestsize) = charAt b (s.bestj + s.bestsize) then
      extendUpperGo a b ahi bhi fuel ⟨s.besti, s.bestj, s.bestsize + 1⟩
    else s

/-- Second extension loop: grow the block upwards while the characters
after it agree. -/
def extendUpper (a b : Str) (ahi bhi : ℕ) (s : FlmState) : FlmState :=
  extendUpperGo a b ahi bhi (ahi - (s.besti + s.bestsize) + 1) s

theorem extendUpperGo_irrel (a b : Str) (ahi bhi : ℕ) :
    ∀ fuel₁, ∀ (fuel₂ : ℕ) (s : FlmState),
    ahi - (s.besti + s.bestsize) < fuel₁ → ahi - (s.besti + s.bestsize) < fuel₂ →
    extendUpperGo a b ahi bhi fuel₁ s = extendUpperGo a b ahi bhi fuel₂ s := by
  intro fuel₁
  induction fuel₁ with
  | zero => intro fuel₂ s h₁ _; omega
  | succ fuel₁ ih =>
    intro fuel₂ s h₁ h₂
    rcases fuel₂ with _ | fuel₂
    · omega
    · rw [extendUpperGo, extendUpperGo]
      by_cases h : s.besti + s.bestsize < ahi ∧ s.bestj + s.bestsize < bhi ∧
          charAt a (s.besti + s.bestsize) = charAt b (s.bestj + s.bestsize)
      · rw [if_pos h, if_pos h]
        exact ih fuel₂ _ (by dsimp only; omega) (by dsimp only; omega)
      · rw [if_neg h, if_neg h]

/-- The while-loop unfolding of `extendUpper`. -/
theorem extendUpper_eq (a b : Str) (ahi bhi : ℕ) (s : FlmState) :
    extendUpper a b ahi bhi s =
      if s.besti + s.bestsize < ahi ∧ s.bestj + s.bestsize < bhi ∧
          charAt a (s.besti + s.bestsize) = charAt b (s.bestj + s.bestsize) then
        extendUpper a b ahi bhi ⟨s.besti, s.bestj, s.bestsize + 1⟩
      else s := by
  unfold extendUpper
  rw [extendUpperGo]
  by_cases h : s.besti + s.bestsize < ahi ∧ s.bestj + s.bestsize < bhi ∧
      charAt a (s.besti + s.bestsize) = charAt b (s.bestj + s.bestsize)
  · rw [if_pos h, if_pos h]
    exact extendUpperGo_irrel a b ahi bhi _ _ _ (by dsimp only; omega)
      (by dsimp only; omega)
  · rw [if_neg h, if_neg h]

/-- `SequenceMatcher.find_longest_match(alo, ahi, blo, bhi)` for
`isjunk=None`: dynamic program, then the two extension loops. -/
def findLongestMatch (a b : Str) (alo ahi blo bhi : ℕ) : FlmState :=
  extendUpper a b ahi bhi (extendLower a b alo blo (flmDP a b alo ahi blo bhi))

/-- The window invariant of the best triple: it stays inside
`[alo, ahi) × [blo, bhi)`, and an untouched triple sits at the origin. -/
def BestInv (alo ahi blo bhi : ℕ) (s : FlmState) : Prop :=
  alo ≤ s.besti ∧ blo ≤ s.bestj ∧
  (s.bestsize = 0 → s.besti = alo ∧ s.bestj = blo) ∧
  (0 < s.bestsize → s.besti + s.bestsize ≤ ahi ∧ s.bestj + s.bestsize ≤ bhi)

theorem innerLoop_inv (alo ahi i blo bhi m : ℕ) (hi1 : alo + m = i) (hi2 : i < ahi) :
    ∀ (js : List ℕ) (prev new : ℕ → ℕ) (best : FlmState),
    (∀ j, prev j ≤ m ∧ (0 < prev j → blo + prev j ≤ j + 1)) →
    (∀ j, new j ≤ m + 1 ∧ (0 < new j → blo + new j ≤ j + 1)) →
    BestInv alo ahi blo bhi best →
    (∀ j, (innerLoop i blo bhi js prev new best).1 j ≤ m + 1 ∧
        (0 < (innerLoop i blo bhi js prev new best).1 j →
          blo + (innerLoop i blo bhi js prev new best).1 j ≤ j + 1)) ∧
      BestInv alo ahi blo bhi (innerLoop i blo bhi js prev new best).2 := by
  intro js
  induction js with
  | nil => intro prev new best _ hn hb; exact ⟨hn, hb⟩
  | cons j js ih =>
    intro prev new best hp hn hb
    by_cases h1 : j < blo
    · rw [innerLoop, if_pos h1]
      exact ih prev new best hp hn hb
    · by_cases h2 : bhi ≤ j
      · rw [innerLoop, if_neg h1, if_pos h2]
        exact ⟨hn, hb⟩
      · have hk1 : (if j = 0 then 0 else prev (j - 1)) + 1 ≤ m + 1 := by
          split
          · omega
          · have := (hp (j - 1)).1; omega
        have hk2 : blo + ((if j = 0 then 0 else prev (j - 1)) + 1) ≤ j + 1 := by
          split
          · omega
          · have h5 := (hp (j - 1)).2
            rcases Nat.eq_zero_or_pos (prev (j - 1)) with h6 | h6
            · omega
            · have := h5 h6; omega
        simp only [innerLoop, if_neg h1, if_neg h2]
        apply ih
        · exact hp
        · intro j'
          unfold upd
          by_cases hj : j' = j
          · rw [if_pos hj, hj]
            exact ⟨hk1, fun _ => hk2⟩
          · rw [if_neg hj]
            exact hn j'
        · obtain ⟨b1, b2, b3, b4⟩ := hb
          set K := (if j = 0 then 0 else prev (j - 1)) + 1 with hK
          by_cases hlt : best.bestsize < K
          · rw [if_pos hlt]
            refine ⟨?_, ?_, ?_, ?_⟩ <;> dsimp only
            · omega
            · omega
            · intro h0; omega
            · intro _; exact ⟨by omega, by omega⟩
          · rw [if_neg hlt]
            exact ⟨b1, b2, b3, b4⟩

theorem rows_inv (a b : Str) (alo ahi blo bhi : ℕ) :
    ∀ (len i0 : ℕ) (j2len : ℕ → ℕ) (best : FlmState),
    alo ≤ i0 → i0 + len ≤ ahi →
    (∀ j, j2len j ≤ i0 - alo ∧ (0 < j2len j → blo + j2len j ≤ j + 1)) →
    BestInv alo ahi blo bhi best →
    BestInv alo ahi blo bhi (rows a b blo bhi (List.range' i0 len) j2len best) := by
  intro len
  induction len with
  | zero => intro i0 j2len best _ _ _ hb; exact hb
  | succ len ih =>
    intro i0 j2len best h1 h2 hp hb
    rw [List.range'_succ, rows]
    have hinner := innerLoop_inv alo ahi i0 blo bhi (i0 - alo) (by omega) (by omega)
      (b2j b (charAt a i0)) j2len (fun _ => 0) best hp
      (fun j => ⟨by simp, by simp⟩) hb
    refine ih (i0 + 1) _ _ (by omega) (by omega) ?_ hinner.2
    intro j
    obtain ⟨ha, hbnd⟩ := hinner.1 j
    exact ⟨by omega, hbnd⟩

theorem bestInv_init (alo ahi blo bhi : ℕ) :
    BestInv alo ahi blo bhi ⟨alo, blo, 0⟩ :=
  ⟨le_refl _, le_refl _, fun _ => ⟨rfl, rfl⟩, fun hpos => absurd hpos (by simp)⟩

theorem flmDP_inv (a b : Str) (alo ahi blo bhi : ℕ) :
    BestInv alo ahi blo bhi (flmDP a b alo ahi blo bhi) := by
  unfold flmDP
  rcases le_or_lt alo ahi with hle | hlt
  · refine rows_inv a b alo ahi blo bhi (ahi - alo) alo _ _ (le_refl alo) (by omega) ?_ ?_
    · intro j; exact ⟨by simp, by simp⟩
    · exact bestInv_init alo ahi blo bhi
  · have h0 : ahi - alo = 0 := by omega
    rw [h0, List.range'_zero]
    exact bestInv_init alo ahi blo bhi

theorem extendLower_inv (a b : Str) (alo blo ahi bhi : ℕ) :
    ∀ (n : ℕ) (s : FlmState), s.besti ≤ n →
    BestInv alo ahi blo bhi s → BestInv alo ahi blo bhi (extendLower a b alo blo s) := by
  intro n
  induction n with
  | zero =>
    intro s hs hb
    rw [extendLower_eq]
    have : ¬ (alo < s.besti ∧ blo < s.bestj ∧
        charAt a (s.besti - 1) = charAt b (s.bestj - 1)) := by
      rintro ⟨h1, -, -⟩; omega
    rw [if_neg this]
    exact hb
  | succ n ih =>
    intro s hs hb
    obtain ⟨b1, b2, b3, b4⟩ := hb
    rw [extendLower_eq]
    by_cases h : alo < s.besti ∧ blo < s.bestj ∧
        charAt a (s.besti - 1) = charAt b (s.bestj - 1)
    · rw [if_pos h]
      refine ih _ (by dsimp only; omega) ?_
      have hsz : 0 < s.bestsize → s.besti + s.bestsize ≤ ahi ∧ s.bestj + s.bestsize ≤ bhi := b4
      have hz : s.bestsize = 0 → s.besti = alo ∧ s.bestj = blo := b3
      refine ⟨?_, ?_, ?_, ?_⟩ <;> dsimp only
      · omega
      · omega
      · intro h0; omega
      · intro _
        rcases Nat.eq_zero_or_pos s.bestsize with h0 | h0
        · have := hz h0; omega
        · have := hsz h0; exact ⟨by omega, by omega⟩
    · rw [if_neg h]
      exact ⟨b1, b2, b3, b4⟩

theorem extendUpper_inv (a b : Str) (alo blo ahi bhi : ℕ) :
    ∀ (n : ℕ) (s : FlmState), ahi - (s.besti + s.bestsize) ≤ n →
    BestInv alo ahi blo bhi s → BestInv alo ahi blo bhi (extendUpper a b ahi bhi s) := by
  intro n
  induction n with
  | zero =>
    intro s hs hb
    rw [extendUpper_eq]
    have : ¬ (s.besti + s.bestsize < ahi ∧ s.bestj + s.bestsize < bhi ∧
        charAt a (s.besti + s.bestsize) = charAt b (s.bestj + s.bestsize)) := by
      rintro ⟨h1, -, -⟩; omega
    rw [if_neg this]
    exact hb
  | succ n ih =>
    intro s hs hb
    obtain ⟨b1, b2, b3, b4⟩ := hb
    rw [extendUpper_eq]
    by_cases h : s.besti + s.bestsize < ahi ∧ s.bestj + s.bestsize < bhi ∧
        charAt a (s.besti + s.bestsize) = charAt b (s.bestj + s.bestsize)
    · rw [if_pos h]
      refine ih _ (by dsimp only; omega) ?_
      refine ⟨?_, ?_, ?_, ?_⟩ <;> dsimp only
      · omega
      · omega
      · intro h0; omega
      · intro _; exact ⟨by omega, by omega⟩
    · rw [if_neg h]
      exact ⟨b1, b2, b3, b4⟩

/-- Window bounds for `find_longest_match`: the returned block lies inside
the requested window (and an empty block sits at `(alo, blo)`). -/
theorem flm_bounds (a b : Str) (alo ahi blo bhi : ℕ) :
    BestInv alo ahi blo bhi (findLongestMatch a b alo ahi blo bhi) := by
  unfold findLongestMatch
  exact extendUpper_inv a b alo blo ahi bhi _ _ (le_refl _)
    (extendLower_inv a b alo blo ahi bhi _ _ (le_refl _) (flmDP_inv a b alo ahi blo bhi))

/-- Recursion body for the total number of matched characters, with an
explicit step budget making the recursion structural: each non-trivial
block strictly shrinks `(ahi - alo) + (bhi - blo)` (see `flm_bounds`), so
that measure plus one always suffices. -/
def mbMatchesGo (a b : Str) : ℕ → ℕ → ℕ → ℕ → ℕ → ℕ
  | 0, _, _, _, _ => 0
  | fuel + 1, alo, ahi, blo, bhi =>
    match findLongestMatch a b alo ahi blo bhi with
    | ⟨i, j, k⟩ =>
      if k = 0 then 0
      else
        k + (if alo < i ∧ blo < j then mbMatchesGo a b fuel alo i blo j else 0)
          + (if i + k < ahi ∧ j + k < bhi then
              mbMatchesGo a b fuel (i + k) ahi (j + k) bhi else 0)

/-- The total number of matched characters: the sum of the block sizes that
`get_matching_blocks` collects.  The library drives this recursion with an
explicit worklist (`queue`); each interval is processed independently of the
rest of the queue, so the direct recursion over intervals computes the same
sum; `mbMatches_eq` below is that recursion. -/
def mbMatches (a b : Str) (alo ahi blo bhi : ℕ) : ℕ :=
  mbMatchesGo a b ((ahi - alo) + (bhi - blo) + 1) alo ahi blo bhi

theorem mbMatchesGo_irrel (a b : Str) :
    ∀ fuel₁, ∀ (fuel₂ alo ahi blo bhi : ℕ),
    (ahi - alo) + (bhi - blo) < fuel₁ → (ahi - alo) + (bhi - blo) < fuel₂ →
    mbMatchesGo a b fuel₁ alo ahi blo bhi = mbMatchesGo a b fuel₂ alo ahi blo bhi := by
  intro fuel₁
  induction fuel₁ with
  | zero => intro fuel₂ alo ahi blo bhi h₁ _; omega
  | succ fuel₁ ih =>
    intro fuel₂ alo ahi blo bhi h₁ h₂
    rcases fuel₂ with _ | fuel₂
    · omega
    · rw [mbMatchesGo, mbMatchesGo]
      rcases hfs : findLongestMatch a b alo ahi blo bhi with ⟨i, j, k⟩
      have hb := flm_bounds a b alo ahi blo bhi
      rw [hfs] at hb
      obtain ⟨hb1, hb2, hb3, hb4⟩ := hb
      dsimp only at hb1 hb2 hb3 hb4 ⊢
      by_cases hk : k = 0
      · rw [if_pos hk, if_pos hk]
      · rw [if_neg hk, if_neg hk]
        have hk' := hb4 (by omega)
        congr 1
        · congr 1
          by_cases hc : alo < i ∧ blo < j
          · rw [if_pos hc, if_pos hc]
            exact ih fuel₂ alo i blo j (by omega) (by omega)
          · rw [if_neg hc, if_neg hc]
        · by_cases hc : i + k < ahi ∧ j + k < bhi
          · rw [if_pos hc, if_pos hc]
            exact ih fuel₂ (i + k) ahi (j + k) bhi (by omega) (by omega)
          · rw [if_neg hc, if_neg hc]

/-- The interval recurrence satisfied by the matched-character count. -/
theorem mbMatches_eq (a b : Str) (alo ahi blo bhi i j k : ℕ)
    (hfs : findLongestMatch a b alo ahi blo bhi = ⟨i, j, k⟩) :
    mbMatches a b alo ahi blo bhi =
      if k = 0 then 0
      else
        k + (if alo < i ∧ blo < j then mbMatches a b alo i blo j else 0)
          + (if i + k < ahi ∧ j + k < bhi then
              mbMatches a b (i + k) ahi (j + k) bhi else 0) := by
  have hb := flm_bounds a b alo ahi blo bhi
  rw [hfs] at hb
  obtain ⟨hb1, hb2, hb3, hb4⟩ := hb
  dsimp only at hb1 hb2 hb3 hb4
  unfold mbMatches
  rw [mbMatchesGo, hfs]
  dsimp only
  by_cases hk : k = 0
  · rw [if_pos hk, if_pos hk]
  · rw [if_neg hk, if_neg hk]
    have hk' := hb4 (by omega)
    congr 1
    · congr 1
      by_cases hc : alo < i ∧ blo < j
      · rw [if_pos hc, if_pos hc]
        exact mbMatchesGo_irrel a b _ _ alo i blo j (by omega) (by omega)
      · rw [if_neg hc, if_neg hc]
    · by_cases hc : i + k < ahi ∧ j + k < bhi
      · rw [if_pos hc, if_pos hc]
        exact mbMatchesGo_irrel a b _ _ (i + k) ahi (j + k) bhi (by omega) (by omega)
      · rw [if_neg hc, if_neg hc]

/-- `SequenceMatcher.ratio()` = `_calculate_ratio(matches, len(a) + len(b))`:
`2.0 * matches / length`, and `1.0` when both sequences are empty. -/
def ratioQ (a b : Str) : ℚ :=
  if a.length + b.length = 0 then 1
  else 2 * (mbMatches a b 0 a.length 0 b.length : ℚ) / (a.length + b.length)

theorem b2j_mem (b : Str) (c : Char) (j : ℕ) (h : j ∈ b2j b c) :
    j < b.length ∧ charAt b j = c := by
  unfold b2j at h
  split at h
  · exact absurd h (List.not_mem_nil j)
  · obtain ⟨h1, h2⟩ := List.mem_filter.mp h
    exact ⟨List.mem_range.mp h1, of_decide_eq_true h2⟩

/-- Validity of the dynamic-programming rows: an entry `t < new j` witnesses
the character match `a[i - t] = b[j - t]`, and the best triple is a genuine
common block. -/
theorem innerLoop_valid (a b : Str) (alo i blo bhi m : ℕ) (hi1 : alo + m = i) :
    ∀ (js : List ℕ) (prev new : ℕ → ℕ) (best : FlmState),
    (∀ j ∈ js, charAt b j = charAt a i) →
    (∀ j, prev j ≤ m ∧ (0 < prev j → blo + prev j ≤ j + 1)) →
    (∀ j, new j ≤ m + 1 ∧ (0 < new j → blo + new j ≤ j + 1)) →
    (∀ j t, t < prev j → charAt a (i - 1 - t) = charAt b (j - t)) →
    (∀ j t, t < new j → charAt a (i - t) = charAt b (j - t)) →
    (∀ t, t < best.bestsize → charAt a (best.besti + t) = charAt b (best.bestj + t)) →
    (∀ j t, t < (innerLoop i blo bhi js prev new best).1 j →
        charAt a (i - t) = charAt b (j - t)) ∧
    (∀ t, t < (innerLoop i blo bhi js prev new best).2.bestsize →
        charAt a ((innerLoop i blo bhi js prev new best).2.besti + t) =
          charAt b ((innerLoop i blo bhi js prev new best).2.bestj + t)) := by
  intro js
  induction js with
  | nil => intro prev new best _ _ _ _ hnv hbv; exact ⟨hnv, hbv⟩
  | cons j js ih =>
    intro prev new best hchar hp hn hpv hnv hbv
    by_cases h1 : j < blo
    · rw [innerLoop, if_pos h1]
      exact ih prev new best (fun j' hj' => hchar j' (List.mem_cons_of_mem j hj'))
        hp hn hpv hnv hbv
    · by_cases h2 : bhi ≤ j
      · rw [innerLoop, if_neg h1, if_pos h2]
        exact ⟨hnv, hbv⟩
      · have hk1 : (if j = 0 then 0 else prev (j - 1)) + 1 ≤ m + 1 := by
          split
          · omega
          · have := (hp (j - 1)).1; omega
        have hk2 : blo + ((if j = 0 then 0 else prev (j - 1)) + 1) ≤ j + 1 := by
          split
          · omega
          · have h5 := (hp (j - 1)).2
            rcases Nat.eq_zero_or_pos (prev (j - 1)) with h6 | h6
            · omega
            · have := h5 h6; omega
        have hkv : ∀ t, t < (if j = 0 then 0 else prev (j - 1)) + 1 →
            charAt a (i - t) = charAt b (j - t) := by
          intro t ht
          rcases t with _ | t'
          · simpa using (hchar j (List.mem_cons_self j js)).symm
          · have hj0 : ¬ j = 0 := by
              intro h0
              rw [if_pos h0] at ht
              omega
            rw [if_neg hj0] at ht
            have := hpv (j - 1) t' (by omega)
            have e1 : i - (t' + 1) = i - 1 - t' := by omega
            have e2 : j - (t' + 1) = j - 1 - t' := by omega
            rw [e1, e2]
            have e3 : j - 1 - t' = (j - 1) - t' := by omega
            rw [e3]
            exact this
        simp only [innerLoop, if_neg h1, if_neg h2]
        apply ih
        · exact fun j' hj' => hchar j' (List.mem_cons_of_mem j hj')
        · exact hp
        · intro j'
          unfold upd
          by_cases hj : j' = j
          · rw [if_pos hj, hj]
            exact ⟨hk1, fun _ => hk2⟩
          · rw [if_neg hj]
            exact hn j'
        · exact hpv
        · intro j' t ht
          unfold upd at ht
          by_cases hj : j' = j
          · rw [if_pos hj] at ht
            rw [hj]
            exact hkv t ht
          · rw [if_neg hj] at ht
            exact hnv j' t ht
        · set K := (if j = 0 then 0 else prev (j - 1)) + 1 with hK
          by_cases hlt : best.bestsize < K
          · rw [if_pos hlt]
            intro t ht
            dsimp only at ht ⊢
            have hKi : K ≤ i + 1 := by omega
            have hKj : K ≤ j + 1 := by omega
            have e1 : i + 1 - K + t = i - (K - 1 - t) := by omega
            have e2 : j + 1 - K + t = j - (K - 1 - t) := by omega
            rw [e1, e2]
            exact hkv (K - 1 - t) (by omega)
          · rw [if_neg hlt]
            exact hbv

theorem rows_valid (a b : Str) (alo ahi blo bhi : ℕ) :
    ∀ (len i0 : ℕ) (j2len : ℕ → ℕ) (best : FlmState),
    alo ≤ i0 → i0 + len ≤ ahi →
    (∀ j, j2len j ≤ i0 - alo ∧ (0 < j2len j → blo + j2len j ≤ j + 1)) →
    BestInv alo ahi blo bhi best →
    (∀ j t, t < j2len j → charAt a (i0 - 1 - t) = charAt b (j - t)) →
    (∀ t, t < best.bestsize → charAt a (best.besti + t) = charAt b (best.bestj + t)) →
    (∀ t, t < (rows a b blo bhi (List.range' i0 len) j2len best).bestsize →
      charAt a ((rows a b blo bhi (List.range' i0 len) j2len best).besti + t) =
        charAt b ((rows a b blo bhi (List.range' i0 len) j2len best).bestj + t)) := by
  intro len
  induction len with
  | zero => intro i0 j2len best _ _ _ _ _ hbv; exact hbv
  | succ len ih =>
    intro i0 j2len best h1 h2 hp hb hpv hbv
    rw [List.range'_succ, rows]
    have hchar : ∀ j ∈ b2j b (charAt a i0), charAt b j = charAt a i0 :=
      fun j hj => (b2j_mem b (charAt a i0) j hj).2
    have hinner := innerLoop_inv alo ahi i0 blo bhi (i0 - alo) (by omega) (by omega)
      (b2j b (charAt a i0)) j2len (fun _ => 0) best hp
      (fun j => ⟨by simp, by simp⟩) hb
    have hvalid := innerLoop_valid a b alo i0 blo bhi (i0 - alo) (by omega)
      (b2j b (charAt a i0)) j2len (fun _ => 0) best hchar hp
      (fun j => ⟨by simp, by simp⟩) hpv (fun j t ht => absurd ht (by simp)) hbv
    refine ih (i0 + 1) _ _ (by omega) (by omega) ?_ hinner.2 ?_ hvalid.2
    · intro j
      obtain ⟨ha, hbnd⟩ := hinner.1 j
      exact ⟨by omega, hbnd⟩
    · intro j t ht
      have e : i0 + 1 - 1 - t = i0 - t := by omega
      rw [e]
      exact hvalid.1 j t ht

theorem extendLower_valid (a b : Str) (alo blo : ℕ) :
    ∀ (n : ℕ) (s : FlmState), s.besti ≤ n →
    (∀ t, t < s.bestsize → charAt a (s.besti + t) = charAt b (s.bestj + t)) →
    (∀ t, t < (extendLower a b alo blo s).bestsize →
      charAt a ((extendLower a b alo blo s).besti + t) =
        charAt b ((extendLower a b alo blo s).bestj + t)) := by
  intro n
  induction n with
  | zero =>
    intro s hs hv
    rw [extendLower_eq]
    have : ¬ (alo < s.besti ∧ blo < s.bestj ∧
        charAt a (s.besti - 1) = charAt b (s.bestj - 1)) := by
      rintro ⟨h1, -, -⟩; omega
    rw [if_neg this]
    exact hv
  | succ n ih =>
    intro s hs hv
    rw [extendLower_eq]
    by_cases h : alo < s.besti ∧ blo < s.bestj ∧
        charAt a (s.besti - 1) = charAt b (s.bestj - 1)
    · rw [if_pos h]
      refine ih _ (by dsimp only; omega) ?_
      intro t ht
      dsimp only at ht ⊢
      rcases t with _ | t'
      · simpa using h.2.2
      · have e1 : s.besti - 1 + (t' + 1) = s.besti + t' := by omega
        have e2 : s.bestj - 1 + (t' + 1) = s.bestj + t' := by omega
        rw [e1, e2]
        exact hv t' (by omega)
    · rw [if_neg h]
      exact hv

theorem extendUpper_valid (a b : Str) (ahi bhi : ℕ) :
    ∀ (n : ℕ) (s : FlmState), ahi - (s.besti + s.bestsize) ≤ n →
    (∀ t, t < s.bestsize → charAt a (s.besti + t) = charAt b (s.bestj + t)) →
    (∀ t, t < (extendUpper a b ahi bhi s).bestsize →
      charAt a ((extendUpper a b ahi bhi s).besti + t) =
        charAt b ((extendUpper a b ahi bhi s).bestj + t)) := by
  intro n
  induction n with
  | zero =>
    intro s hs hv
    rw [extendUpper_eq]
    have : ¬ (s.besti + s.bestsize < ahi ∧ s.bestj + s.bestsize < bhi ∧
        charAt a (s.besti + s.bestsize) = charAt b (s.bestj + s.bestsize)) := by
      rintro ⟨h1, -, -⟩; omega
    rw [if_neg this]
    exact hv
  | succ n ih =>
    intro s hs hv
    rw [extendUpper_eq]
    by_cases h : s.besti + s.bestsize < ahi ∧ s.bestj + s.bestsize < bhi ∧
        charAt a (s.besti + s.bestsize) = charAt b (s.bestj + s.bestsize)
    · rw [if_pos h]
      refine ih _ (by dsimp only; omega) ?_
      intro t ht
      dsimp only at ht ⊢
      rcases Nat.lt_or_ge t s.bestsize with ht' | ht'
      · exact hv t ht'
      · have e : t = s.bestsize := by omega
        rw [e]
        exact h.2.2
    · rw [if_neg h]
      exact hv

/-- The block returned by `find_longest_match` is a genuine common block:
the `bestsize` characters starting at `besti` in `a` and at `bestj` in `b`
agree pairwise. -/
theorem flm_valid (a b : Str) (alo ahi blo bhi : ℕ) :
    ∀ t, t < (findLongestMatch a b alo ahi blo bhi).bestsize →
      charAt a ((findLongestMatch a b alo ahi blo bhi).besti + t) =
        charAt b ((findLongestMatch a b alo ahi blo bhi).bestj + t) := by
  have hdpv : ∀ t, t < (flmDP a b alo ahi blo bhi).bestsize →
      charAt a ((flmDP a b alo ahi blo bhi).besti + t) =
        charAt b ((flmDP a b alo ahi blo bhi).bestj + t) := by
    unfold flmDP
    rcases le_or_lt alo ahi with hle | hlt
    · exact rows_valid a b alo ahi blo bhi (ahi - alo) alo _ _ (le_refl alo) (by omega)
        (fun j => ⟨by simp, by simp⟩) (bestInv_init alo ahi blo bhi)
        (fun j t ht => absurd ht (by simp))
        (fun t ht => absurd ht (by simp))
    · have h0 : ahi - alo = 0 := by omega
      rw [h0, List.range'_zero]
      exact fun t ht => absurd ht (by simp [rows])
  unfold findLongestMatch
  exact extendUpper_valid a b ahi bhi _ _ (le_refl _)
    (extendLower_valid a b alo blo _ _ (le_refl _) hdpv)

/-- The matched-character count never exceeds either window size. -/
theorem mbMatchesGo_le (a b : Str) :
    ∀ fuel (alo ahi blo bhi : ℕ),
    mbMatchesGo a b fuel alo ahi blo bhi ≤ ahi - alo ∧
    mbMatchesGo a b fuel alo ahi blo bhi ≤ bhi - blo := by
  intro fuel
  induction fuel with
  | zero => intro alo ahi blo bhi; exact ⟨Nat.zero_le _, Nat.zero_le _⟩
  | succ fuel ih =>
    intro alo ahi blo bhi
    rw [mbMatchesGo]
    rcases hfs : findLongestMatch a b alo ahi blo bhi with ⟨i, j, k⟩
    have hb := flm_bounds a b alo ahi blo bhi
    rw [hfs] at hb
    obtain ⟨hb1, hb2, hb3, hb4⟩ := hb
    dsimp only at hb1 hb2 hb3 hb4 ⊢
    by_cases hk : k = 0
    · rw [if_pos hk]
      exact ⟨Nat.zero_le _, Nat.zero_le _⟩
    · rw [if_neg hk]
      have hk' := hb4 (by omega)
      have h1 := ih alo i blo j
      have h2 := ih (i + k) ahi (j + k) bhi
      by_cases hc1 : alo < i ∧ blo < j <;> by_cases hc2 : i + k < ahi ∧ j + k < bhi
      · rw [if_pos hc1, if_pos hc2]; omega
      · rw [if_pos hc1, if_neg hc2]; omega
      · rw [if_neg hc1, if_pos hc2]; omega
      · rw [if_neg hc1, if_neg hc2]; omega

theorem mbMatches_le (a b : Str) (alo ahi blo bhi : ℕ) :
    mbMatches a b alo ahi blo bhi ≤ ahi - alo ∧
    mbMatches a b alo ahi blo bhi ≤ bhi - blo :=
  mbMatchesGo_le a b _ alo ahi blo bhi

/-- A similarity ratio is never above `1`. -/
theorem ratioQ_le_one (a b : Str) : ratioQ a b ≤ 1 := by
  unfold ratioQ
  split
  · exact le_refl 1
  · rename_i h0
    have hle := (mbMatches_le a b 0 a.length 0 b.length).1
    have hle' := (mbMatches_le a b 0 a.length 0 b.length).2
    rw [div_le_one (by exact_mod_cast Nat.pos_of_ne_zero h0)]
    have : (mbMatches a b 0 a.length 0 b.length : ℚ) ≤ (a.length : ℚ) := by
      exact_mod_cast le_trans hle (by omega)
    have h2 : (mbMatches a b 0 a.length 0 b.length : ℚ) ≤ (b.length : ℚ) := by
      exact_mod_cast le_trans hle' (by omega)
    linarith

/-- A full-size match forces the two windows to agree character by
character. -/
theorem mbMatchesGo_full (a b : Str) :
    ∀ fuel (alo ahi blo bhi : ℕ),
    (ahi - alo) + (bhi - blo) < fuel →
    mbMatchesGo a b fuel alo ahi blo bhi = ahi - alo →
    mbMatchesGo a b fuel alo ahi blo bhi = bhi - blo →
    ∀ t, t < ahi - alo → charAt a (alo + t) = charAt b (blo + t) := by
  intro fuel
  induction fuel with
  | zero => intro alo ahi blo bhi h; omega
  | succ fuel ih =>
    intro alo ahi blo bhi hfuel hA hB t ht
    rw [mbMatchesGo] at hA hB
    rcases hfs : findLongestMatch a b alo ahi blo bhi with ⟨i, j, k⟩
    rw [hfs] at hA hB
    dsimp only at hA hB
    have hbnd := flm_bounds a b alo ahi blo bhi
    rw [hfs] at hbnd
    obtain ⟨hb1, hb2, hb3, hb4⟩ := hbnd
    dsimp only at hb1 hb2 hb3 hb4
    have hval := flm_valid a b alo ahi blo bhi
    rw [hfs] at hval
    dsimp only at hval
    by_cases hk : k = 0
    · rw [if_pos hk] at hA
      omega
    · rw [if_neg hk] at hA hB
      have hk' := hb4 (by omega)
      set M1 := (if alo < i ∧ blo < j then mbMatchesGo a b fuel alo i blo j else 0)
        with hM1
      set M2 := (if i + k < ahi ∧ j + k < bhi then
        mbMatchesGo a b fuel (i + k) ahi (j + k) bhi else 0) with hM2
      have h1a : M1 ≤ i - alo ∧ M1 ≤ j - blo := by
        rw [hM1]
        split
        · exact mbMatchesGo_le a b fuel alo i blo j
        · exact ⟨Nat.zero_le _, Nat.zero_le _⟩
      have h2a : M2 ≤ ahi - (i + k) ∧ M2 ≤ bhi - (j + k) := by
        rw [hM2]
        split
        · exact mbMatchesGo_le a b fuel (i + k) ahi (j + k) bhi
        · exact ⟨Nat.zero_le _, Nat.zero_le _⟩
      have e1 : M1 = i - alo := by omega
      have e1b : M1 = j - blo := by omega
      have e2 : M2 = ahi - (i + k) := by omega
      have e2b : M2 = bhi - (j + k) := by omega
      by_cases ht1 : t < i - alo
      · have hc1 : alo < i ∧ blo < j := by omega
        rw [if_pos hc1] at hM1
        have := ih alo i blo j (by omega) (by rw [← hM1]; omega) (by rw [← hM1]; omega)
          t (by omega)
        exact this
      · by_cases ht2 : t < (i - alo) + k
        · have e : alo + t = i + (t - (i - alo)) := by omega
          have e' : blo + t = j + (t - (i - alo)) := by omega
          rw [e, e']
          exact hval (t - (i - alo)) (by omega)
        · have hc2 : i + k < ahi ∧ j + k < bhi := by omega
          rw [if_pos hc2] at hM2
          have hrec := ih (i + k) ahi (j + k) bhi (by omega) (by rw [← hM2]; omega)
            (by rw [← hM2]; omega) (t - ((i - alo) + k)) (by omega)
          have e : alo + t = (i + k) + (t - ((i - alo) + k)) := by omega
          have e' : blo + t = (j + k) + (t - ((i - alo) + k)) := by omega
          rw [e, e']
          exact hrec

/-- A similarity ratio of exactly `1` forces the two sequences to be equal. -/
theorem eq_of_ratioQ_eq_one (a b : Str) (h : ratioQ a b = 1) : a = b := by
  unfold ratioQ at h
  split at h
  · rename_i h0
    have ha : a.length = 0 := by omega
    have hb : b.length = 0 := by omega
    rw [List.length_eq_zero] at ha hb
    rw [ha, hb]
  · rename_i h0
    set M := mbMatches a b 0 a.length 0 b.length with hM
    have hden : ((a.length : ℚ) + (b.length : ℚ)) ≠ 0 := by
      have : (0:ℕ) < a.length + b.length := Nat.pos_of_ne_zero h0
      push_cast
      exact_mod_cast Nat.pos_of_ne_zero h0 |>.ne'
    have h2M : 2 * M = a.length + b.length := by
      rw [div_eq_one_iff_eq hden] at h
      exact_mod_cast h
    have hMa := (mbMatches_le a b 0 a.length 0 b.length).1
    have hMb := (mbMatches_le a b 0 a.length 0 b.length).2
    rw [← hM] at hMa hMb
    have hlen : a.length = b.length := by omega
    have hgo : mbMatchesGo a b ((a.length - 0) + (b.length - 0) + 1) 0 a.length
        0 b.length = M := by
      rw [hM]
      rfl
    have hfull := mbMatchesGo_full a b ((a.length - 0) + (b.length - 0) + 1)
      0 a.length 0 b.length (by omega) (by rw [hgo]; omega) (by rw [hgo]; omega)
    apply List.ext_get hlen
    intro n h1 h2
    have hc := hfull n (by omega)
    unfold charAt at hc
    rw [Nat.zero_add] at hc
    rw [← List.getD_eq_get a ' ' h1, ← List.getD_eq_get b ' ' h2]
    exact hc

/-- Proof device for the identity law: the length of the maximal contiguous
run of non-popular characters of `s` ending at position `r`. -/
def npRun (s : Str) : ℕ → ℕ
  | 0 => if isPopular s (charAt s 0) then 0 else 1
  | r + 1 => if isPopular s (charAt s (r + 1)) then 0 else npRun s r + 1

theorem npRun_of_np (s : Str) (r : ℕ) (h : isPopular s (charAt s r) = false) :
    npRun s r = (if r = 0 then 0 else npRun s (r - 1)) + 1 := by
  rcases r with _ | r
  · simp [npRun, h]
  · simp [npRun, h]

theorem b2j_mem_np (b : Str) (c : Char) (j : ℕ) (h : j ∈ b2j b c) :
    isPopular b c = false := by
  unfold b2j at h
  split at h
  · exact absurd h (List.not_mem_nil j)
  · rename_i hp
    exact Bool.of_not_eq_true hp

/-- Diagonal invariant of the dynamic program when matching `s` against
itself on the full window: every entry of a row is bounded by the
non-popular run lengths at both of its ends, the diagonal entry is exact,
and the best triple stays on the diagonal with `bestsize` dominating every
run that ends strictly before the next row. -/
theorem innerLoop_diag (s : Str) (i : ℕ) (hi : i < s.length) :
    ∀ (js : List ℕ) (prev new : ℕ → ℕ) (best : FlmState),
    List.Pairwise (· < ·) js →
    (∀ j ∈ js, j < s.length ∧ charAt s j = charAt s i ∧
      isPopular s (charAt s j) = false) →
    (∀ j, prev j ≤ npRun s j) →
    (∀ j, prev j ≤ (if i = 0 then 0 else npRun s (i - 1))) →
    (i = 0 ∨ prev (i - 1) = npRun s (i - 1)) →
    (∀ j, new j ≤ npRun s j) →
    (∀ j, new j ≤ npRun s i) →
    (i ∈ js ∨ new i = npRun s i) →
    (i ∈ js ∨ npRun s i ≤ best.bestsize) →
    best.bestj = best.besti →
    (∀ r, r < i → npRun s r ≤ best.bestsize) →
    (∀ j, (innerLoop i 0 s.length js prev new best).1 j ≤ npRun s j) ∧
    (∀ j, (innerLoop i 0 s.length js prev new best).1 j ≤ npRun s i) ∧
    (innerLoop i 0 s.length js prev new best).1 i = npRun s i ∧
    (innerLoop i 0 s.length js prev new best).2.bestj =
      (innerLoop i 0 s.length js prev new best).2.besti ∧
    (∀ r, r < i + 1 →
      npRun s r ≤ (innerLoop i 0 s.length js prev new best).2.bestsize) := by
  intro js
  induction js with
  | nil =>
    intro prev new best _ _ _ _ _ hn1 hn2 hn3 hj3 hb1 hb2
    refine ⟨hn1, hn2, ?_, hb1, ?_⟩
    · rcases hn3 with h | h
      · exact absurd h (List.not_mem_nil i)
      · exact h
    · intro r hr
      rcases Nat.lt_or_ge r i with h | h
      · exact hb2 r h
      · have hri : r = i := by omega
        rcases hj3 with h' | h'
        · exact absurd h' (List.not_mem_nil i)
        · rw [hri]; exact h'
  | cons j js ih =>
    intro prev new best hsort hmem hp1 hp2 hp3 hn1 hn2 hn3 hj3 hb1 hb2
    obtain ⟨hjn, hjc, hjnp⟩ := hmem j (List.mem_cons_self j js)
    have hnpi : isPopular s (charAt s i) = false := by rw [← hjc]; exact hjnp
    have hruni : npRun s i = (if i = 0 then 0 else npRun s (i - 1)) + 1 :=
      npRun_of_np s i hnpi
    have hrunj : npRun s j = (if j = 0 then 0 else npRun s (j - 1)) + 1 :=
      npRun_of_np s j hjnp
    simp only [innerLoop, if_neg (by omega : ¬ j < 0),
      if_neg (by omega : ¬ s.length ≤ j)]
    set K := (if j = 0 then 0 else prev (j - 1)) + 1 with hK
    have hKj : K ≤ npRun s j := by
      rw [hrunj, hK]
      split
      · omega
      · have := hp1 (j - 1); omega
    have hKi : K ≤ npRun s i := by
      rw [hruni, hK]
      split
      · omega
      · have := hp2 (j - 1); omega
    obtain ⟨hjlt, hsort'⟩ := List.pairwise_cons.mp hsort
    by_cases hji : j = i
    · -- the diagonal position: the entry is exact and any update stays diagonal
      have hKex : K = npRun s i := by
        rw [hruni, hK, hji]
        rcases hp3 with h0 | h0
        · rw [if_pos h0, if_pos h0]
        · by_cases hz : i = 0
          · rw [if_pos hz, if_pos hz]
          · rw [if_neg hz, if_neg hz, h0]
      have hup : ∀ j', upd new j K j' ≤ npRun s j' := by
        intro j'
        unfold upd
        split
        · rename_i h; rw [h, hji]; rw [hKex]
        · exact hn1 j'
      have hup2 : ∀ j', upd new j K j' ≤ npRun s i := by
        intro j'
        unfold upd
        split
        · rw [hKex]
        · exact hn2 j'
      have hupd : upd new j K i = npRun s i := by
        unfold upd
        rw [if_pos hji.symm]
        exact hKex
      by_cases hlt : best.bestsize < K
      · rw [if_pos hlt]
        refine ih prev (upd new j K) ⟨i + 1 - K, j + 1 - K, K⟩ hsort'
          (fun j' hj' => hmem j' (List.mem_cons_of_mem j hj')) hp1 hp2 hp3
          hup hup2 (Or.inr hupd) (Or.inr (by dsimp only; omega)) (by dsimp only; rw [hji])
          ?_
        intro r hr
        dsimp only
        rcases Nat.lt_or_ge r i with h | h
        · have := hb2 r h; omega
        · have : r = i := by omega
          rw [this]; omega
      · rw [if_neg hlt]
        refine ih prev (upd new j K) best hsort'
          (fun j' hj' => hmem j' (List.mem_cons_of_mem j hj')) hp1 hp2 hp3
          hup hup2 (Or.inr hupd) (Or.inr (by omega)) hb1 hb2
    · -- off-diagonal: no update can happen
      have hnoup : ¬ best.bestsize < K := by
        rcases Nat.lt_or_ge j i with hlt | hge
        · have := hb2 j hlt
          omega
        · have hgt : i < j := by omega
          have hpass : npRun s i ≤ best.bestsize := by
            rcases hj3 with h | h
            · rcases List.mem_cons.mp h with h' | h'
              · omega
              · have := hjlt i h'
                omega
            · exact h
          omega
      rw [if_neg hnoup]
      have hup : ∀ j', upd new j K j' ≤ npRun s j' := by
        intro j'
        unfold upd
        split
        · rename_i h; rw [h]; exact hKj
        · exact hn1 j'
      have hup2 : ∀ j', upd new j K j' ≤ npRun s i := by
        intro j'
        unfold upd
        split
        · exact hKi
        · exact hn2 j'
      have hupd : i ∈ js ∨ upd new j K i = npRun s i := by
        rcases hn3 with h | h
        · rcases List.mem_cons.mp h with h' | h'
          · exact absurd h' (fun h'' => hji h''.symm)
          · exact Or.inl h'
        · refine Or.inr ?_
          unfold upd
          rw [if_neg (fun h'' => hji h''.symm)]
          exact h
      have hj3' : i ∈ js ∨ npRun s i ≤ best.bestsize := by
        rcases hj3 with h | h
        · rcases List.mem_cons.mp h with h' | h'
          · exact absurd h' (fun h'' => hji h''.symm)
          · exact Or.inl h'
        · exact Or.inr h
      exact ih prev (upd new j K) best hsort'
        (fun j' hj' => hmem j' (List.mem_cons_of_mem j hj')) hp1 hp2 hp3
        hup hup2 hupd hj3' hb1 hb2

theorem b2j_sorted (b : Str) (c : Char) : List.Pairwise (· < ·) (b2j b c) := by
  unfold b2j
  split
  · exact List.Pairwise.nil
  · exact List.Pairwise.filter _ (List.pairwise_lt_range _)

theorem b2j_self_mem (s : Str) (i : ℕ) (hi : i < s.length)
    (hnp : isPopular s (charAt s i) = false) : i ∈ b2j s (charAt s i) := by
  unfold b2j
  rw [if_neg (by simp [hnp])]
  exact List.mem_filter.mpr ⟨List.mem_range.mpr hi, by simp⟩

theorem rows_diag (s : Str) :
    ∀ (len i0 : ℕ) (j2len : ℕ → ℕ) (best : FlmState),
    i0 + len ≤ s.length →
    (∀ j, j2len j ≤ npRun s j) →
    (∀ j, j2len j ≤ (if i0 = 0 then 0 else npRun s (i0 - 1))) →
    (i0 = 0 ∨ j2len (i0 - 1) = npRun s (i0 - 1)) →
    best.bestj = best.besti →
    (∀ r, r < i0 → npRun s r ≤ best.bestsize) →
    (rows s s 0 s.length (List.range' i0 len) j2len best).bestj =
      (rows s s 0 s.length (List.range' i0 len) j2len best).besti := by
  intro len
  induction len with
  | zero => intro i0 j2len best _ _ _ _ hb1 _; exact hb1
  | succ len ih =>
    intro i0 j2len best hlen hp1 hp2 hp3 hb1 hb2
    rw [List.range'_succ]
    simp only [rows]
    have hmem : ∀ j ∈ b2j s (charAt s i0), j < s.length ∧
        charAt s j = charAt s i0 ∧ isPopular s (charAt s j) = false := by
      intro j hj
      obtain ⟨h1, h2⟩ := b2j_mem s (charAt s i0) j hj
      have h3 := b2j_mem_np s (charAt s i0) j hj
      exact ⟨h1, h2, by rw [h2]; exact h3⟩
    have hrun0 : isPopular s (charAt s i0) = true → npRun s i0 = 0 := by
      intro hb
      rcases i0 with _ | r <;> simp [npRun, hb]
    have hj3 : i0 ∈ b2j s (charAt s i0) ∨ npRun s i0 ≤ best.bestsize := by
      rcases Bool.eq_false_or_eq_true (isPopular s (charAt s i0)) with hb | hb
      · rw [hrun0 hb]
        exact Or.inr (Nat.zero_le _)
      · exact Or.inl (b2j_self_mem s i0 (by omega) hb)
    have hn3 : i0 ∈ b2j s (charAt s i0) ∨ (fun _ : ℕ => 0) i0 = npRun s i0 := by
      rcases Bool.eq_false_or_eq_true (isPopular s (charAt s i0)) with hb | hb
      · rw [hrun0 hb]
        exact Or.inr rfl
      · exact Or.inl (b2j_self_mem s i0 (by omega) hb)
    have hdiag := innerLoop_diag s i0 (by omega) (b2j s (charAt s i0)) j2len
      (fun _ => 0) best (b2j_sorted s _) hmem hp1 hp2 hp3
      (fun j => Nat.zero_le _) (fun j => Nat.zero_le _) hn3 hj3 hb1 hb2
    obtain ⟨c1, c2, c3, c4, c5⟩ := hdiag
    refine ih (i0 + 1) _ _ (by omega) c1 ?_ (Or.inr (by simpa using c3)) c4 ?_
    · intro j
      rw [if_neg (Nat.succ_ne_zero i0)]
      simpa using c2 j
    · simpa using c5

theorem flmDP_diag (s : Str) :
    (flmDP s s 0 s.length 0 s.length).bestj = (flmDP s s 0 s.length 0 s.length).besti := by
  unfold flmDP
  exact rows_diag s (s.length - 0) 0 _ _ (by omega) (fun j => Nat.zero_le _)
    (fun j => by simp) (Or.inl rfl) rfl (fun r hr => absurd hr (by omega))

theorem extendLower_diag (a : Str) :
    ∀ (n : ℕ) (s : FlmState), s.besti ≤ n → s.bestj = s.besti →
    extendLower a a 0 0 s = ⟨0, 0, s.besti + s.bestsize⟩ := by
  intro n
  induction n with
  | zero =>
    intro s hs hd
    obtain ⟨bi, bj, bs⟩ := s
    dsimp only at hs hd ⊢
    have hbi : bi = 0 := by omega
    subst hbi
    subst hd
    rw [extendLower_eq, if_neg (by dsimp only; omega)]
    rw [Nat.zero_add]
  | succ n ih =>
    intro s hs hd
    rw [extendLower_eq]
    by_cases hbi : 0 < s.besti
    · rw [if_pos ⟨hbi, by omega, by rw [hd]⟩]
      rw [ih ⟨s.besti - 1, s.bestj - 1, s.bestsize + 1⟩ (by dsimp only; omega)
        (by dsimp only; omega)]
      dsimp only
      have e : s.besti - 1 + (s.bestsize + 1) = s.besti + s.bestsize := by omega
      rw [e]
    · rw [if_neg (fun h => hbi h.1)]
      obtain ⟨bi, bj, bs⟩ := s
      dsimp only at hs hd hbi ⊢
      have h1 : bi = 0 := by omega
      subst h1
      subst hd
      rw [Nat.zero_add]

theorem extendUpper_diag (a : Str) (n : ℕ) :
    ∀ (fuelm k : ℕ), k ≤ n → n - k ≤ fuelm →
    extendUpper a a n n ⟨0, 0, k⟩ = ⟨0, 0, n⟩ := by
  intro fuelm
  induction fuelm with
  | zero =>
    intro k hk hf
    have : k = n := by omega
    subst this
    rw [extendUpper_eq, if_neg (by dsimp only; omega)]
  | succ fuelm ih =>
    intro k hk hf
    by_cases hlt : k < n
    · rw [extendUpper_eq, if_pos ⟨by dsimp only; omega, by dsimp only; omega, rfl⟩]
      exact ih (k + 1) (by omega) (by omega)
    · have : k = n := by omega
      subst this
      rw [extendUpper_eq, if_neg (by dsimp only; omega)]

/-- Matching a string against itself finds the full-length block. -/
theorem flm_self (s : Str) :
    findLongestMatch s s 0 s.length 0 s.length = ⟨0, 0, s.length⟩ := by
  unfold findLongestMatch
  rw [extendLower_diag s _ (flmDP s s 0 s.length 0 s.length) (le_refl _) (flmDP_diag s)]
  obtain ⟨h1, h2, h3, h4⟩ := flmDP_inv s s 0 s.length 0 s.length
  have hle : (flmDP s s 0 s.length 0 s.length).besti +
      (flmDP s s 0 s.length 0 s.length).bestsize ≤ s.length := by
    rcases Nat.eq_zero_or_pos (flmDP s s 0 s.length 0 s.length).bestsize with h0 | h0
    · have := h3 h0; omega
    · exact (h4 h0).1
  exact extendUpper_diag s s.length s.length _ hle (by omega)

theorem mbMatches_self (s : Str) :
    mbMatches s s 0 s.length 0 s.length = s.length := by
  rw [mbMatches_eq s s 0 s.length 0 s.length 0 0 s.length (flm_self s)]
  by_cases h0 : s.length = 0
  · rw [if_pos h0]
    omega
  · rw [if_neg h0, if_neg (by omega), if_neg (by omega)]
    omega

/-- Identity: a string compared with itself scores exactly `1`. -/
theorem ratioQ_self (s : Str) : ratioQ s s = 1 := by
  unfold ratioQ
  by_cases h0 : s.length + s.length = 0
  · rw [if_pos h0]
  · rw [if_neg h0, mbMatches_self]
    have hne : (s.length : ℚ) ≠ 0 := by
      exact_mod_cast (by omega : s.length ≠ 0)
    field_simp
    ring

/-- A record of `data/faqs.json`: a JSON object with optional `"question"`
and `"answer"` string fields and a `"tags"` list.  A `none` field models a
record in which the key is missing. -/
structure Faq where
  question : Option Str
  answer : Option Str
  tags : List Str
deriving DecidableEq, Repr

/-- The score the loop body computes for one record:
`SequenceMatcher(None, query.lower(), faq.get("question", "").lower()).ratio()`
where `query` is already stripped. -/
def faqScore (query : Str) (f : Faq) : ℚ :=
  ratioQ (pyLower query) (pyLower (f.question.getD []))

/-- The scan loop of `best_faq_match`: the running `(best, best_score)` pair,
updated only on a strictly greater score. -/
def scanLoop (q : Str) : List Faq → Option Faq × ℚ → Option Faq × ℚ
  | [], st => st
  | f :: fs, st =>
    let score := faqScore q f
    if st.2 < score then scanLoop q fs (some f, score) else scanLoop q fs st

/-- The default `threshold=0.55` of `best_faq_match`. -/
def defaultThreshold : ℚ := 55 / 100

/-- `best_faq_match(query, threshold)` of `src/app.py`.  The module-level
`faqs` corpus is passed explicitly; `query` is `Option Str` so that a
missing (`None`) query is representable — `(query or "").strip()` maps it
to the empty string. -/
def best_faq_match (faqs : List Faq) (query : Option Str) (threshold : ℚ) :
    Option Faq × ℚ :=
  let q := strip (query.getD [])
  if q = [] ∨ faqs = [] then (none, 0)
  else
    let r := scanLoop q faqs (none, 0)
    if r.2 < threshold then (none, r.2) else r

/-- A record of `data/cities.json`; only the fields `list_provinces` touches
are modelled, with `none` for a missing key. -/
structure City where
  name : Option String
  province : Option String
deriving DecidableEq, Repr

/-- `list_provinces()` = `sorted({c.get("province", "Unknown") for c in cities})`
(with the early `[]` return for an empty corpus), over an explicit corpus.
`sorted` of the set comprehension is the ascending enumeration of the distinct
values, here: dedup then insertion sort under the lexicographic order on
strings (Python compares strings by code point, as Lean's `≤` does). -/
def list_provinces (cities : List City) : List String :=
  if cities = [] then []
  else ((cities.map (fun c => c.province.getD "Unknown")).dedup).insertionSort (· ≤ ·)

/-- Default record used for positional access in statements. -/
def dfltFaq : Faq := ⟨none, none, []⟩

/- ## Elementary facts about the preprocessing and the scan loop -/

theorem strip_nil : strip [] = [] := rfl

theorem strip_eq_nil_of_whitespace (s : Str) (h : ∀ c ∈ s, c.isWhitespace = true) :
    strip s = [] := by
  unfold strip
  rw [List.dropWhile_eq_nil_iff.mpr h]
  simp

theorem ratioQ_nonneg (a b : Str) : 0 ≤ ratioQ a b := by
  unfold ratioQ
  split
  · norm_num
  · positivity

/-- The score component of the scan is the running maximum of the scores. -/
theorem scanLoop_snd (q : Str) :
    ∀ (fs : List Faq) (st : Option Faq × ℚ),
    (scanLoop q fs st).2 = (fs.map (faqScore q)).foldl max st.2 := by
  intro fs
  induction fs with
  | nil => intro st; rfl
  | cons f fs ih =>
    intro st
    rw [scanLoop]
    by_cases h : st.2 < faqScore q f
    · rw [if_pos h, ih, List.map_cons, List.foldl_cons,
        max_eq_right (le_of_lt h)]
    · rw [if_neg h, ih, List.map_cons, List.foldl_cons,
        max_eq_left (not_lt.mp h)]

/-- Full characterization of the scan: either no record beats the initial
score (and the state passes through unchanged), or the result is the first
record attaining the maximum score, strictly above the initial score. -/
theorem scan_spec (q : Str) :
    ∀ (fs : List Faq) (st : Option Faq × ℚ),
    (scanLoop q fs st = st ∧ ∀ j, j < fs.length → faqScore q (fs.getD j dfltFaq) ≤ st.2)
    ∨ (∃ i, i < fs.length ∧
        scanLoop q fs st = (some (fs.getD i dfltFaq), faqScore q (fs.getD i dfltFaq)) ∧
        st.2 < faqScore q (fs.getD i dfltFaq) ∧
        (∀ j, j < fs.length →
          faqScore q (fs.getD j dfltFaq) ≤ faqScore q (fs.getD i dfltFaq)) ∧
        (∀ j, j < i →
          faqScore q (fs.getD j dfltFaq) < faqScore q (fs.getD i dfltFaq))) := by
  intro fs
  induction fs with
  | nil =>
    intro st
    exact Or.inl ⟨rfl, fun j hj => absurd hj (by simp)⟩
  | cons f fs ih =>
    intro st
    rw [scanLoop]
    by_cases hup : st.2 < faqScore q f
    · rw [if_pos hup]
      rcases ih (some f, faqScore q f) with ⟨heq, hle⟩ | ⟨i, hi, heq, hlt, hub, hstrict⟩
      · refine Or.inr ⟨0, by simp, ?_, ?_, ?_, ?_⟩
        · simpa using heq
        · simpa using hup
        · intro j hj
          rcases j with _ | j
          · simp
          · simpa using hle j (by simpa using hj)
        · intro j hj; omega
      · refine Or.inr ⟨i + 1, by simpa using hi, ?_, ?_, ?_, ?_⟩
        · simpa using heq
        · exact lt_trans hup (by simpa using hlt)
        · intro j hj
          rcases j with _ | j
          · simpa using le_of_lt (by simpa using hlt)
          · simpa using hub j (by simpa using hj)
        · intro j hj
          rcases j with _ | j
          · simpa using lt_of_le_of_lt (le_refl _) (by simpa using hlt)
          · simpa using hstrict j (by omega)
    · rw [if_neg hup]
      rcases ih st with ⟨heq, hle⟩ | ⟨i, hi, heq, hlt, hub, hstrict⟩
      · refine Or.inl ⟨heq, ?_⟩
        intro j hj
        rcases j with _ | j
        · simpa using not_lt.mp hup
        · simpa using hle j (by simpa using hj)
      · refine Or.inr ⟨i + 1, by simpa using hi, by simpa using heq, hlt, ?_, ?_⟩
        · intro j hj
          rcases j with _ | j
          · simpa using le_trans (not_lt.mp hup) (le_of_lt hlt)
          · simpa using hub j (by simpa using hj)
        · intro j hj
          rcases j with _ | j
          · simpa using lt_of_le_of_lt (not_lt.mp hup) hlt
          · simpa using hstrict j (by omega)

/-- A positive final score means a record was selected. -/
theorem scan_isSome (q : Str) (fs : List Faq) (h : 0 < (scanLoop q fs (none, 0)).2) :
    ∃ f, (scanLoop q fs (none, 0)).1 = some f := by
  rcases scan_spec q fs (none, 0) with ⟨heq, -⟩ | ⟨i, -, heq, -, -, -⟩
  · rw [heq] at h; exact absurd h (by norm_num)
  · rw [heq]; exact ⟨_, rfl⟩

theorem getD_mem_of_lt {l : List Faq} {i : ℕ} (h : i < l.length) :
    l.getD i dfltFaq ∈ l := by
  induction l generalizing i with
  | nil => simp at h
  | cons x xs ih =>
    rcases i with _ | i
    · simp
    · simp only [List.getD_cons_succ]
      exact List.mem_cons_of_mem _ (ih (by simpa using h))

theorem foldl_max_le_self (l : List ℚ) : ∀ init, init ≤ l.foldl max init := by
  induction l with
  | nil => intro init; exact le_refl _
  | cons a l ih =>
    intro init
    exact le_trans (le_max_left init a) (ih (max init a))

theorem le_foldl_max (l : List ℚ) : ∀ init, ∀ x ∈ l, x ≤ l.foldl max init := by
  induction l with
  | nil => intro init x hx; simp at hx
  | cons a l ih =>
    intro init x hx
    rcases List.mem_cons.mp hx with rfl | hx
    · exact le_trans (le_max_right init x) (foldl_max_le_self l (max init x))
    · exact ih (max init a) x hx

theorem foldl_max_mem (l : List ℚ) : ∀ init, l.foldl max init = init ∨ l.foldl max init ∈ l := by
  induction l with
  | nil => intro init; exact Or.inl rfl
  | cons a l ih =>
    intro init
    rcases ih (max init a) with h | h
    · rcases max_choice init a with h' | h'
      · exact Or.inl (by rw [List.foldl_cons, h, h'])
      · exact Or.inr (by rw [List.foldl_cons, h, h']; exact List.mem_cons_self a l)
    · exact Or.inr (List.mem_cons_of_mem a h)

/-- The returned record, when present, is an element of the corpus. -/
theorem best_faq_match_mem (faqs : List Faq) (q : Option Str) (t : ℚ) :
    (best_faq_match faqs q t).1 = none ∨
      ∃ f, f ∈ faqs ∧ (best_faq_match faqs q t).1 = some f := by
  simp only [best_faq_match]
  split
  · exact Or.inl rfl
  · split
    · exact Or.inl rfl
    · rcases scan_spec (strip (q.getD [])) faqs (none, 0) with ⟨heq, -⟩ |
        ⟨i, hi, heq, -, -, -⟩
      · rw [heq]; exact Or.inl rfl
      · rw [heq]; exact Or.inr ⟨_, getD_mem_of_lt hi, rfl⟩

/-- The score component is insensitive to the threshold branch. -/
theorem best_faq_match_snd (faqs : List Faq) (q : Str) (t : ℚ)
    (hq : strip q ≠ []) (hf : faqs ≠ []) :
    (best_faq_match faqs (some q) t).2 = (scanLoop (strip q) faqs (none, 0)).2 := by
  simp only [best_faq_match, Option.getD_some]
  rw [if_neg (not_or.mpr ⟨hq, hf⟩)]
  split <;> rfl

/-- Evaluation helper: reduce a concrete `ratioQ` to literal arithmetic. -/
theorem ratioQ_eval (a b : Str) (M : ℕ)
    (hm : mbMatches a b 0 a.length 0 b.length = M)
    (h0 : ¬ a.length + b.length = 0) :
    ratioQ a b = 2 * (M : ℚ) / ((a.length + b.length : ℕ) : ℚ) := by
  unfold ratioQ
  rw [if_neg h0, hm]
  norm_cast

/- ## The claims -/

/-- C1: for a query whose trimmed form is non-empty and a non-empty corpus,
`best_faq_match` applies the inclusive threshold rule to the best score found
by the scan: at or above the threshold it returns the scanned
`(best, best_score)` pair (a genuine record whenever the threshold is
positive), and strictly below it returns `(None, best_score)`; a best score
exactly equal to the threshold selects the match. -/
theorem claim_C1_threshold_rule (faqs : List Faq) (q : Str) (t : ℚ)
    (hq : strip q ≠ []) (hf : faqs ≠ []) (ht0 : 0 ≤ t) (ht1 : t ≤ 1) :
    (t ≤ (scanLoop (strip q) faqs (none, 0)).2 →
      best_faq_match faqs (some q) t = scanLoop (strip q) faqs (none, 0)) ∧
    ((scanLoop (strip q) faqs (none, 0)).2 < t →
      best_faq_match faqs (some q) t = (none, (scanLoop (strip q) faqs (none, 0)).2)) ∧
    ((scanLoop (strip q) faqs (none, 0)).2 = t →
      best_faq_match faqs (some q) t = scanLoop (strip q) faqs (none, 0)) ∧
    (0 < t → t ≤ (scanLoop (strip q) faqs (none, 0)).2 →
      ∃ f, best_faq_match faqs (some q) t =
        (some f, (scanLoop (strip q) faqs (none, 0)).2)) := by
  have hmain : best_faq_match faqs (some q) t =
      (if (scanLoop (strip q) faqs (none, 0)).2 < t then
        (none, (scanLoop (strip q) faqs (none, 0)).2)
      else scanLoop (strip q) faqs (none, 0)) := by
    simp only [best_faq_match, Option.getD_some]
    rw [if_neg (not_or.mpr ⟨hq, hf⟩)]
  refine ⟨?_, ?_, ?_, ?_⟩
  · intro hle
    rw [hmain, if_neg (not_lt.mpr hle)]
  · intro hlt
    rw [hmain, if_pos hlt]
  · intro heq
    rw [hmain, if_neg (not_lt.mpr (le_of_eq heq.symm))]
  · intro htpos hle
    obtain ⟨f, hfsome⟩ := scan_isSome (strip q) faqs (lt_of_lt_of_le htpos hle)
    refine ⟨f, ?_⟩
    rw [hmain, if_neg (not_lt.mpr hle)]
    exact Prod.ext hfsome rfl

theorem claim_C1_witness :
    strip ['h', 'i'] ≠ [] ∧
    best_faq_match [⟨some ['h', 'i'], none, []⟩] (some ['h', 'i']) (11 / 20) =
      (some ⟨some ['h', 'i'], none, []⟩, 1) := by
  have hsc : faqScore (strip ['h', 'i']) (⟨some ['h', 'i'], none, []⟩ : Faq) = 1 := by
    unfold faqScore
    rw [show pyLower (strip ['h', 'i']) = ['h', 'i'] from by decide]
    rw [show pyLower ((Faq.mk (some ['h', 'i']) none []).question.getD []) =
      ['h', 'i'] from by decide]
    rw [ratioQ_eval ['h', 'i'] ['h', 'i'] 2 (by decide) (by decide)]
    norm_num
  have hscan : scanLoop (strip ['h', 'i']) [⟨some ['h', 'i'], none, []⟩] (none, 0) =
      (some ⟨some ['h', 'i'], none, []⟩, 1) := by
    rw [scanLoop, hsc]
    rw [if_pos (by norm_num)]
    rw [scanLoop]
  refine ⟨by decide, ?_⟩
  have h := claim_C1_threshold_rule [⟨some ['h', 'i'], none, []⟩]
    ['h', 'i'] (11 / 20) (by decide) (by decide) (by norm_num) (by norm_num)
  exact (h.1 (by rw [hscan]; norm_num)).trans hscan

/-- C2: an empty or whitespace-only query, or an empty corpus, short-circuits
to `(None, 0.0)`. -/
theorem claim_C2_degenerate (faqs : List Faq) (t : ℚ) (q : Option Str) (w : Str)
    (hw : ∀ c ∈ w, c.isWhitespace = true) :
    best_faq_match faqs (some []) t = (none, 0) ∧
    best_faq_match faqs (some w) t = (none, 0) ∧
    best_faq_match [] q t = (none, 0) := by
  refine ⟨?_, ?_, ?_⟩
  · simp only [best_faq_match, Option.getD_some]
    rw [if_pos (Or.inl strip_nil)]
  · simp only [best_faq_match, Option.getD_some]
    rw [if_pos (Or.inl (strip_eq_nil_of_whitespace w hw))]
  · simp [best_faq_match]

theorem claim_C2_witness :
    best_faq_match [⟨some ('x' :: []), none, []⟩] (some (' ' :: ' ' :: [])) (11 / 20) =
      (none, 0) :=
  (claim_C2_degenerate [⟨some ('x' :: []), none, []⟩] (11 / 20)
    (some ('y' :: [])) (' ' :: ' ' :: []) (by decide)).2.1

/-- C3: for a non-empty trimmed query and non-empty corpus, the returned score
is the maximum of `faqScore` (the similarity of the case-folded trimmed query
against each record's case-folded question) over the whole corpus, for every
threshold — in particular also when the maximum is below the threshold. -/
theorem claim_C3_score_is_max (faqs : List Faq) (q : Str) (t : ℚ)
    (hq : strip q ≠ []) (hf : faqs ≠ []) :
    (best_faq_match faqs (some q) t).2 ∈ faqs.map (faqScore (strip q)) ∧
    ∀ x ∈ faqs.map (faqScore (strip q)), x ≤ (best_faq_match faqs (some q) t).2 := by
  rw [best_faq_match_snd faqs q t hq hf, scanLoop_snd (strip q) faqs (none, 0)]
  have hnn : ∀ x ∈ faqs.map (faqScore (strip q)), 0 ≤ x := by
    intro x hx
    obtain ⟨f, -, rfl⟩ := List.mem_map.mp hx
    exact ratioQ_nonneg _ _
  constructor
  · rcases foldl_max_mem (faqs.map (faqScore (strip q))) 0 with h | h
    · rcases faqs with _ | ⟨f0, fs⟩
      · exact absurd rfl hf
      · have hub := le_foldl_max ((f0 :: fs).map (faqScore (strip q))) 0
          (faqScore (strip q) f0) (by simp)
        have h0 : faqScore (strip q) f0 = (0 : ℚ) :=
          le_antisymm (by rw [← h]; exact hub) (hnn _ (by simp))
        rw [h]
        rw [← h0]
        simp
    · exact h
  · exact le_foldl_max _ 0

theorem claim_C3_witness :
    (best_faq_match [⟨some ('a' :: 'b' :: []), none, []⟩, ⟨none, none, []⟩]
      (some ('b' :: 'a' :: [])) (11 / 20)).2 ∈
      ([⟨some ('a' :: 'b' :: []), none, []⟩, ⟨none, none, []⟩].map
        (faqScore (strip ('b' :: 'a' :: [])))) := by
  have h := claim_C3_score_is_max
    [⟨some ('a' :: 'b' :: []), none, []⟩, ⟨none, none, []⟩]
    ('b' :: 'a' :: []) (11 / 20) (by decide) (by decide)
  exact h.1

/-- C4: whenever a record is returned, it sits at some corpus position whose
score equals the returned score, every corpus score is at most that score,
and every strictly earlier corpus position scores strictly less — i.e. the
first record attaining the maximum wins. -/
theorem claim_C4_first_max (faqs : List Faq) (q : Option Str) (t : ℚ)
    (f : Faq) (s : ℚ) (h : best_faq_match faqs q t = (some f, s)) :
    ∃ i, i < faqs.length ∧ faqs.getD i dfltFaq = f ∧
      faqScore (strip (q.getD [])) (faqs.getD i dfltFaq) = s ∧
      (∀ j, j < faqs.length → faqScore (strip (q.getD [])) (faqs.getD j dfltFaq) ≤ s) ∧
      (∀ j, j < i → faqScore (strip (q.getD [])) (faqs.getD j dfltFaq) < s) := by
  simp only [best_faq_match] at h
  rcases h' : (decide (strip (q.getD []) = [] ∨ faqs = [])) with _ | _
  · rw [if_neg (of_decide_eq_false h')] at h
    split at h
    · exact absurd (congrArg Prod.fst h) (by simp)
    · rcases scan_spec (strip (q.getD [])) faqs (none, 0) with ⟨heq, -⟩ |
        ⟨i, hi, heq, -, hub, hstrict⟩
      · rw [heq] at h
        exact absurd (congrArg Prod.fst h) (by simp)
      · rw [heq] at h
        obtain ⟨h1, h2⟩ := Prod.mk.injEq .. ▸ h
        refine ⟨i, hi, by injection h1, by rw [h2], ?_, ?_⟩
        · intro j hj; rw [← h2]; exact hub j hj
        · intro j hj; rw [← h2]; exact hstrict j hj
  · rw [if_pos (of_decide_eq_true h')] at h
    exact absurd (congrArg Prod.fst h) (by simp)

theorem claim_C4_witness :
    ∃ i, i < 1 ∧ [(⟨some ['o', 'k'], none, []⟩ : Faq)].getD i dfltFaq =
        ⟨some ['o', 'k'], none, []⟩ ∧
      faqScore (strip ((some ['o', 'k']).getD []))
        ([(⟨some ['o', 'k'], none, []⟩ : Faq)].getD i dfltFaq) = 1 ∧
      (∀ j, j < 1 → faqScore (strip ((some ['o', 'k']).getD []))
        ([(⟨some ['o', 'k'], none, []⟩ : Faq)].getD j dfltFaq) ≤ 1) ∧
      (∀ j, j < i → faqScore (strip ((some ['o', 'k']).getD []))
        ([(⟨some ['o', 'k'], none, []⟩ : Faq)].getD j dfltFaq) < 1) := by
  have hsc : faqScore (strip ['o', 'k']) (⟨some ['o', 'k'], none, []⟩ : Faq) = 1 := by
    unfold faqScore
    rw [show pyLower (strip ['o', 'k']) = ['o', 'k'] from by decide]
    rw [show pyLower ((Faq.mk (some ['o', 'k']) none []).question.getD []) =
      ['o', 'k'] from by decide]
    rw [ratioQ_eval ['o', 'k'] ['o', 'k'] 2 (by decide) (by decide)]
    norm_num
  have hscan : scanLoop (strip ['o', 'k']) [⟨some ['o', 'k'], none, []⟩] (none, 0) =
      (some ⟨some ['o', 'k'], none, []⟩, 1) := by
    rw [scanLoop, hsc]
    rw [if_pos (by norm_num)]
    rw [scanLoop]
  refine claim_C4_first_max [⟨some ['o', 'k'], none, []⟩]
    (some ['o', 'k']) (11 / 20) ⟨some ['o', 'k'], none, []⟩ 1 ?_
  simp only [best_faq_match, Option.getD_some]
  rw [if_neg (by decide), hscan]
  rw [if_neg (by norm_num)]

/-- C5: the identity law.  If some record's case-folded question equals the
case-folded trimmed query, `best_faq_match` at the default threshold returns
the first such record together with score exactly `1` (earlier records with a
different question score strictly below `1`, since a ratio of `1` forces
equality of the compared strings). -/
theorem claim_C5_identity (faqs : List Faq) (q : Str) (i : ℕ)
    (hq : strip q ≠ []) (hi : i < faqs.length)
    (hit : pyLower ((faqs.getD i dfltFaq).question.getD []) = pyLower (strip q))
    (hfirst : ∀ j, j < i →
      pyLower ((faqs.getD j dfltFaq).question.getD []) ≠ pyLower (strip q)) :
    best_faq_match faqs (some q) defaultThreshold =
      (some (faqs.getD i dfltFaq), 1) := by
  have hf : faqs ≠ [] := by
    intro h
    rw [h] at hi
    simp at hi
  have hscore_i : faqScore (strip q) (faqs.getD i dfltFaq) = 1 := by
    unfold faqScore
    rw [hit, ratioQ_self]
  have hub : ∀ f : Faq, faqScore (strip q) f ≤ 1 := fun f => ratioQ_le_one _ _
  have hltone : ∀ j, j < i → faqScore (strip q) (faqs.getD j dfltFaq) < 1 := by
    intro j hj
    rcases lt_or_eq_of_le (hub (faqs.getD j dfltFaq)) with h | h
    · exact h
    · exact absurd (eq_of_ratioQ_eq_one _ _ h).symm (hfirst j hj)
  rcases scan_spec (strip q) faqs (none, 0) with ⟨heq, hle⟩ |
    ⟨i', hi', heq, hlt', hub', hstrict⟩
  · have := hle i hi
    rw [hscore_i] at this
    norm_num at this
  · have hsi' : faqScore (strip q) (faqs.getD i' dfltFaq) = 1 := by
      have h1 := hub' i hi
      rw [hscore_i] at h1
      exact le_antisymm (hub _) h1
    have hii' : i' = i := by
      rcases lt_trichotomy i' i with h | h | h
      · exact absurd hsi' (ne_of_lt (hltone i' h))
      · exact h
      · have h2 := hstrict i h
        rw [hscore_i, hsi'] at h2
        exact absurd h2 (lt_irrefl 1)
    subst hii'
    have hmain : best_faq_match faqs (some q) defaultThreshold =
        (if (scanLoop (strip q) faqs (none, 0)).2 < defaultThreshold then
          (none, (scanLoop (strip q) faqs (none, 0)).2)
        else scanLoop (strip q) faqs (none, 0)) := by
      simp only [best_faq_match, Option.getD_some]
      rw [if_neg (not_or.mpr ⟨hq, hf⟩)]
    rw [hmain, heq, hsi']
    rw [if_neg (by norm_num [defaultThreshold])]

theorem claim_C5_witness :
    best_faq_match [⟨some ['g', 'o'], none, []⟩] (some ['g', 'o']) defaultThreshold =
      (some ⟨some ['g', 'o'], none, []⟩, 1) :=
  claim_C5_identity [⟨some ['g', 'o'], none, []⟩] ['g', 'o'] 0 (by decide)
    (by decide) (by decide) (fun j hj => absurd hj (by omega))

/-- C6: degenerate inputs degrade gracefully: a missing (`none`) question is
scored exactly like an empty-string question, empty corpus and empty query
yield `(None, 0.0)`, and the result record is always `None` or a record of
the corpus (the embedding is a total function — no exception paths exist). -/
theorem claim_C6_graceful (faqs : List Faq) (q : Option Str) (t : ℚ)
    (qs : Str) (ans : Option Str) (tags : List Str) :
    faqScore qs ⟨none, ans, tags⟩ = ratioQ (pyLower qs) (pyLower []) ∧
    faqScore qs ⟨some [], ans, tags⟩ = ratioQ (pyLower qs) (pyLower []) ∧
    best_faq_match [] q t = (none, 0) ∧
    best_faq_match faqs (some []) t = (none, 0) ∧
    ((best_faq_match faqs q t).1 = none ∨
      ∃ f, f ∈ faqs ∧ (best_faq_match faqs q t).1 = some f) := by
  refine ⟨rfl, rfl, ?_, ?_, best_faq_match_mem faqs q t⟩
  · simp [best_faq_match]
  · simp only [best_faq_match, Option.getD_some]
    rw [if_pos (Or.inl strip_nil)]

/-- C7: `best_faq_match` is deterministic — two calls on identical inputs
return the identical `(record, score)` pair.  (The embedding is a pure
function, so this is intrinsic.) -/
theorem claim_C7_deterministic (faqs : List Faq) (q : Option Str) (t : ℚ)
    (r1 r2 : Option Faq × ℚ) (h1 : best_faq_match faqs q t = r1)
    (h2 : best_faq_match faqs q t = r2) : r1 = r2 := by
  rw [← h1, ← h2]

theorem claim_C7_witness :
    ((none : Option Faq), (0 : ℚ)) = ((none : Option Faq), (0 : ℚ)) :=
  claim_C7_deterministic [] none (11 / 20) (none, 0) (none, 0)
    (by decide) (by decide)

/-- C8: the matcher has no effect on its inputs: it only reads the corpus and
returns either `None` or one of the corpus records themselves (never a
modified copy).  Mutation is not expressible in this pure embedding; the
corpus value after a call is the very value passed in. -/
theorem claim_C8_no_mutation (faqs : List Faq) (q : Option Str) (t : ℚ) :
    ((best_faq_match faqs q t).1 = none ∨
      ∃ f, f ∈ faqs ∧ (best_faq_match faqs q t).1 = some f) ∧
    (fun fs => (best_faq_match fs q t, fs)) faqs = (best_faq_match faqs q t, faqs) :=
  ⟨best_faq_match_mem faqs q t, rfl⟩

/-- C9: a missing (`None`) query is normalized by `(query or "")` to the empty
string, so the call returns `(None, 0.0)` exactly as for an empty query. -/
theorem claim_C9_none_query (faqs : List Faq) (t : ℚ) :
    best_faq_match faqs none t = (none, 0) ∧
    best_faq_match faqs none t = best_faq_match faqs (some []) t := by
  constructor
  · simp only [best_faq_match, Option.getD_none]
    rw [if_pos (Or.inl strip_nil)]
  · rfl

/-- C10: `list_provinces` returns the sorted duplicate-free list of the
province values (with `"Unknown"` substituted for a missing field), and `[]`
on an empty corpus. -/
theorem claim_C10_provinces (cities : List City) :
    (list_provinces cities).Sorted (· ≤ ·) ∧
    (list_provinces cities).Nodup ∧
    (∀ p, p ∈ list_provinces cities ↔
      p ∈ cities.map (fun c => c.province.getD "Unknown")) ∧
    (cities = [] → list_provinces cities = []) := by
  unfold list_provinces
  by_cases hc : cities = []
  · rw [if_pos hc]
    subst hc
    exact ⟨List.sorted_nil, List.nodup_nil, fun p => by simp, fun _ => rfl⟩
  · rw [if_neg hc]
    refine ⟨List.sorted_insertionSort _ _, ?_, ?_, fun h => absurd h hc⟩
    · exact (List.perm_insertionSort _ _).nodup_iff.mpr (List.nodup_dedup _)
    · intro p
      rw [(List.perm_insertionSort _ _).mem_iff, List.mem_dedup]

theorem claim_C10_witness :
    list_provinces [] = [] ∧
    (list_provinces [⟨some "A", some "On"⟩, ⟨some "B", none⟩]).Sorted (· ≤ ·) :=
  ⟨(claim_C10_provinces []).2.2.2 rfl,
   (claim_C10_provinces [⟨some "A", some "On"⟩, ⟨some "B", none⟩]).1⟩

end MyCanada
